import Mathlib

/-!
Verification of the pyzmq build-utility code (`buildutils/config.py`,
`setup.py`) and of the messaging-core design described by the repository
specification.  Definitions in namespace `Pyzmq` are shallow embeddings of
the Python source; definitions in namespace `MsgCore` are modelled from the
specification text (the messaging core itself is the wrapped native library
and is not part of the provided sources).
-/

set_option autoImplicit false

namespace Pyzmq

/-- Embedding of Python values as they occur in the pyzmq build
configuration: scalars (strings, integers, booleans, `None`), lists and
dicts.  Dicts are insertion-ordered association lists, as in Python 3.7+. -/
inductive PyVal where
  | str (s : String)
  | int (n : Int)
  | bool (b : Bool)
  | none
  | list (l : List PyVal)
  | dict (d : List (String × PyVal))

/-- First-match lookup in an insertion-ordered dict, Python `d[key]` /
`key in d`. -/
def lookup (k : String) : List (String × PyVal) → Option PyVal
  | [] => Option.none
  | (k₂, v) :: rest => if k = k₂ then Option.some v else lookup k rest

/-- Python `d[key] = v` on a dict already containing `key`: the value is
replaced in place, position preserved. -/
def setKey (k : String) (v : PyVal) : List (String × PyVal) → List (String × PyVal)
  | [] => []
  | (k₂, v₂) :: rest =>
    if k = k₂ then (k₂, v) :: rest else (k₂, v₂) :: setKey k v rest

mutual

/-- Embedding of `buildutils/config.py::merge`:
```
def merge(into, d):
    if isinstance(into, dict):
        for key in d.keys():
            if key not in into:
                into[key] = d[key]
            else:
                into[key] = merge(into[key], d[key])
        return into
    elif isinstance(into, list):
        return into + d
    else:
        return d
```
`Except` models the exceptions Python raises when `into` is a dict but `d`
has no `.keys()` (AttributeError), or `into` is a list and `d` is not
(TypeError). -/
def merge : PyVal → PyVal → Except String PyVal
  | PyVal.dict into, d =>
    match d with
    | PyVal.dict dd =>
      match mergeEntries into dd with
      | Except.ok out => Except.ok (PyVal.dict out)
      | Except.error e => Except.error e
    | _ => Except.error ("AttributeError: object has no attribute keys")
  | PyVal.list into, d =>
    match d with
    | PyVal.list dl => Except.ok (PyVal.list (into ++ dl))
    | _ => Except.error ("TypeError: can only concatenate list to list")
  | _, d => Except.ok d

/-- The `for key in d.keys()` loop of `merge`, acting on the accumulated
`into` dict: an absent key is appended (Python dict insertion order), a
present key is merged recursively in place. -/
def mergeEntries : List (String × PyVal) → List (String × PyVal) →
    Except String (List (String × PyVal))
  | into, [] => Except.ok into
  | into, (k, v) :: rest =>
    match lookup k into with
    | Option.none => mergeEntries (into ++ [(k, v)]) rest
    | Option.some old =>
      match merge old v with
      | Except.ok m => mergeEntries (setKey k m into) rest
      | Except.error e => Except.error e

end

/-- The settings dict produced by `config_from_prefix`: the three keys it
always sets, plus `allow_legacy_libzmq` which only the explicit-prefix
branch sets (`Option.none` models the absent key). -/
structure ZmqSettings where
  zmq_prefix : String
  libzmq_extension : Bool
  no_libzmq_extension : Bool
  allow_legacy_libzmq : Option Bool
deriving DecidableEq

/-- Python `str.lower()` restricted to the ASCII case mapping, which is all
the comparisons in `config_from_prefix` need. -/
def pyLower (s : String) : String := String.mk (s.data.map Char.toLower)

/-- Embedding of `buildutils/config.py::config_from_prefix`.  `abspath`
abstracts `os.path.abspath`, which depends on the process working
directory. -/
def config_from_prefix (abspath : String → String) (pfx : String) : ZmqSettings :=
  if pyLower pfx = "default" ∨ pyLower pfx = "auto" ∨ pyLower pfx = "" then
    ⟨"", false, false, Option.none⟩
  else if pyLower pfx = "bundled" ∨ pyLower pfx = "extension" then
    ⟨"", true, false, Option.none⟩
  else
    ⟨abspath pfx, false, true, Option.some true⟩

/-- Python tuple comparison `<` on integer version tuples: lexicographic,
a strict prefix is smaller. -/
def versLt : List Nat → List Nat → Bool
  | _, [] => false
  | [], _ :: _ => true
  | a :: as, b :: bs => if a < b then true else if b < a then false else versLt as bs

/-- Embedding of `buildutils/config.py::v_str`: turn `(2,0,1)` into
`"2.0.1"`. -/
def v_str (v : List Nat) : String :=
  String.intercalate (".") (v.map toString)

/-- `setup.py`: `min_legacy_zmq = (2, 1, 4)`. -/
def min_legacy_zmq : List Nat := [2, 1, 4]

/-- `setup.py`: `min_good_zmq = (3, 2)`. -/
def min_good_zmq : List Nat := [3, 2]

/-- Embedding of `setup.py::Configure.check_zmq_version`, given the version
tuple `vers` detected by the test build.  `target_zmq` and `dev_zmq` are
parameters because `bundled_version` is imported from a bundling module not
in the provided sources.  A raised `LibZMQVersionError` is `Except.error`
with the joined message; a normal return is `Except.ok` with the list of
warnings emitted.  The trailing Windows-only DLL staging check is outside
this model (platform-specific filesystem side effect). -/
def check_zmq_version ( zmq_prefix : String) (allow_legacy_libzmq : Bool)
    (target_zmq dev_zmq : List Nat) (vers : List Nat) : Except String (List String) :=
  let vs := v_str vers
  let min_zmq := if allow_legacy_libzmq then min_legacy_zmq else min_good_zmq
  if versLt vers min_zmq then
    let msg := ["Detected ZMQ version: " ++ vs ++ ", but require ZMQ >= " ++ v_str min_zmq]
    let msg := if zmq_prefix ≠ "" then msg ++ ["    ZMQ_PREFIX=" ++ zmq_prefix] else msg
    let msg :=
      if ¬ versLt vers min_legacy_zmq then
        msg ++ ["    Explicitly allow legacy zmq by specifying `--zmq=/zmq/prefix`"]
      else msg
    Except.error (String.intercalate ("\n") msg)
  else if versLt vers min_good_zmq then
    Except.ok
      (["Detected legacy ZMQ version: " ++ vs ++
          ". It is STRONGLY recommended to use ZMQ >= " ++ v_str min_good_zmq] ++
        (if zmq_prefix ≠ "" then ["    ZMQ_PREFIX=" ++ zmq_prefix] else []))
  else if versLt vers target_zmq then
    Except.ok
      ["Detected ZMQ version: " ++ vs ++ ", but pyzmq targets ZMQ " ++ v_str target_zmq,
        "libzmq features and fixes introduced after " ++ vs ++ " will be unavailable."]
  else if ¬ versLt vers dev_zmq then
    Except.ok
      ["Detected ZMQ version: " ++ vs ++
        ". Some new features in libzmq may not be exposed by pyzmq."]
  else
    Except.ok []

/-- Whether an `Except` is an error (a raised exception). -/
def isError {ε α : Type} : Except ε α → Bool
  | Except.error _ => true
  | Except.ok _ => false

/-- Whether a Python value is neither a dict nor a list. -/
def isScalar : PyVal → Bool
  | PyVal.list _ => false
  | PyVal.dict _ => false
  | _ => true

end Pyzmq

namespace MsgCore

/-- Modelled from the spec: a Frame is one opaque byte buffer unit within a
Message (the messaging core itself is the wrapped native library, absent
from the provided sources). -/
abbrev Frame := List Nat

/-- Modelled from the spec: a Message is an ordered sequence of Frames. -/
abbrev Message := List Frame

/-- Little-endian base-128 varint digits, structurally recursive on a fuel
bound (fuel ≥ n always suffices, since the remaining value at least halves
each step). -/
def encodeVarintAux : Nat → Nat → List Nat
  | 0, n => [n % 128]
  | Nat.succ fuel, n =>
    if n < 128 then [n] else (n % 128 + 128) :: encodeVarintAux fuel (n / 128)

/-- Modelled from the spec: the varint length field of the wire framing
`[1 byte flags (bit0=more)] [varint length] [payload bytes]` — little-endian
base-128 with a continuation bit on every byte but the last. -/
def encodeVarint (n : Nat) : List Nat := encodeVarintAux n n

/-- Modelled from the spec: varint decoding from a byte buffer; `none` means
the buffer ends before the varint does (more bytes must arrive). -/
def decodeVarint : List Nat → Option (Nat × List Nat)
  | [] => Option.none
  | b :: rest =>
    if b < 128 then Option.some (b, rest)
    else
      match decodeVarint rest with
      | Option.some (v, r) => Option.some (b % 128 + 128 * v, r)
      | Option.none => Option.none

/-- Modelled from the spec: one encoded frame — a flags byte whose bit0 is
the more-flag, the varint payload length, then the payload. -/
def encodeFrame (more : Bool) (f : Frame) : List Nat :=
  (if more then 1 else 0) :: (encodeVarint f.length ++ f)

/-- Modelled from the spec: `encode(frames) -> bytes`; every frame but the
last carries the multipart continuation (more) flag. -/
def encode : Message → List Nat
  | [] => []
  | [f] => encodeFrame false f
  | f :: rest => encodeFrame true f ++ encode rest

/-- Modelled from the spec: decode one frame from the receive buffer,
returning (more-flag, payload, remaining bytes); `none` means the buffer
holds only an incomplete tail, to be re-attempted on the next read. -/
def decodeFrame (buf : List Nat) : Option (Bool × Frame × List Nat) :=
  match buf with
  | [] => Option.none
  | flags :: rest =>
    match decodeVarint rest with
    | Option.none => Option.none
    | Option.some (len, rest₂) =>
      if rest₂.length < len then Option.none
      else Option.some (flags % 2 == 1, rest₂.take len, rest₂.drop len)

/-- Decode frames until one without the more-flag completes a Message; the
fuel bounds recursion depth (each frame consumes at least its flags byte,
so `buf.length` fuel always suffices). -/
def decodeMessageAux : Nat → List Nat → Option (Message × List Nat)
  | 0, _ => Option.none
  | Nat.succ fuel, buf =>
    match decodeFrame buf with
    | Option.none => Option.none
    | Option.some (more, payload, rest) =>
      if more then
        match decodeMessageAux fuel rest with
        | Option.some (fs, r) => Option.some (payload :: fs, r)
        | Option.none => Option.none
      else Option.some ([payload], rest)

/-- Modelled from the spec: attempt to decode one complete Message from the
growable receive buffer; `none` buffers the incomplete tail. -/
def decodeMessage (buf : List Nat) : Option (Message × List Nat) :=
  decodeMessageAux buf.length buf

/-- Modelled from the spec: `decode(bytes) -> (frames, bytesConsumed)`; an
incomplete buffer consumes nothing and yields no frames. -/
def decode (buf : List Nat) : Option Message × Nat :=
  match decodeMessage buf with
  | Option.some (fs, rest) => (Option.some fs, buf.length - rest.length)
  | Option.none => (Option.none, 0)

/-- Extract every complete Message currently in the receive buffer, keeping
the incomplete tail; fueled like `decodeMessageAux`. -/
def drainAux : Nat → List Nat → List Message × List Nat
  | 0, buf => ([], buf)
  | Nat.succ fuel, buf =>
    match decodeMessage buf with
    | Option.none => ([], buf)
    | Option.some (fs, rest) =>
      match drainAux fuel rest with
      | (ms, r) => (fs :: ms, r)

/-- Modelled from the spec: drain the receive buffer of complete Messages,
buffering the incomplete tail for the next read. -/
def drain (buf : List Nat) : List Message × List Nat :=
  drainAux (buf.length + 1) buf

/-- Modelled from the spec: feed byte chunks incrementally into the growable
receive buffer, draining completed Messages after each chunk. -/
def feedChunks : List Nat → List (List Nat) → List Message × List Nat
  | buf, [] => ([], buf)
  | buf, c :: cs =>
    match drain (buf ++ c) with
    | (ms, buf₂) =>
      match feedChunks buf₂ cs with
      | (ms₂, buf₃) => (ms ++ ms₂, buf₃)

/-- Modelled from the spec: the error taxonomy surfaced to callers;
`StateError` is a pattern-protocol violation that leaves the connection
unaffected. -/
inductive SockError where
  | StateError
deriving DecidableEq

/-- Modelled from the spec: a Socket in requester role — the internal
lock-step flag enforcing strict request/reply alternation, the outbound
queue, and its transport connection state (abstracted as `C`). -/
structure ReqSocket (C : Type) where
  awaitingReply : Bool
  pending : List Message
  conn : C

/-- Modelled from the spec: sending a request on a requester Socket.  While
a reply is outstanding the call fails with `StateError` and the Socket
(including its connection) is returned unchanged; otherwise the message is
queued and the lock-step flag set. -/
def reqSend {C : Type} (s : ReqSocket C) (m : Message) : Option SockError × ReqSocket C :=
  if s.awaitingReply then (Option.some SockError.StateError, s)
  else (Option.none, ⟨true, s.pending ++ [m], s.conn⟩)

/-- Modelled from the spec: receiving the reply clears the lock-step flag,
permitting the next request. -/
def reqRecvReply {C : Type} (s : ReqSocket C) : ReqSocket C :=
  ⟨false, s.pending, s.conn⟩

/-- Modelled from the spec: the fixed-size per-subscriber outbound ring
buffer of a publisher, with its drop counter. -/
structure SubscriberBuf where
  capacity : Nat
  buf : List Message
  dropped : Nat

/-- Modelled from the spec: publishing one message to a subscriber buffer —
the publisher never blocks; on overflow the oldest unsent message is
dropped and the drop counter increments. -/
def pubPush (b : SubscriberBuf) (m : Message) : SubscriberBuf :=
  if b.buf.length + 1 ≤ b.capacity then ⟨b.capacity, b.buf ++ [m], b.dropped⟩
  else
    ⟨b.capacity, (b.buf ++ [m]).drop (b.buf.length + 1 - b.capacity),
      b.dropped + (b.buf.length + 1 - b.capacity)⟩

/-- Publishing a sequence of messages, oldest first, with no draining. -/
def pubPushAll (b : SubscriberBuf) (ms : List Message) : SubscriberBuf :=
  ms.foldl pubPush b

/-- Modelled from the spec: one round of Push-Pull round-robin dispatch —
starting at the cursor, probe up to `attempts` connections in cyclic order;
`avail` says which connections would accept (false = WouldBlock, skipped
for this round). -/
def tryFrom (avail : List Bool) : Nat → Nat → Option Nat
  | _, 0 => Option.none
  | start, Nat.succ attempts =>
    let i := start % avail.length
    if avail.getD i false then Option.some i
    else tryFrom avail (start + 1) attempts

/-- Modelled from the spec: dispatch one outbound message round-robin across
the connections; returns the receiving connection (none = all would block,
message stays queued) and the next-round cursor, advanced past the
receiver so a skipped connection is retried next round. -/
def dispatch (avail : List Bool) (cursor : Nat) : Option Nat × Nat :=
  match tryFrom avail cursor avail.length with
  | Option.some i => (Option.some i, i + 1)
  | Option.none => (Option.none, cursor)

/-- Modelled from the spec: inbound events at the receive side of a Socket —
a decoded frame with its more-flag, or loss of the connection. -/
inductive RecvEvent where
  | frame (f : Frame) (more : Bool)
  | connLost

/-- Modelled from the spec: receive-side reassembly state — the frames of
the in-progress multipart Message and the queue of complete Messages
visible to the application. -/
structure RecvState where
  pending : List Frame
  queue : List Message

/-- Modelled from the spec: a frame with the more-flag joins the in-progress
multipart state; a final frame delivers the whole Message to the receive
queue atomically; connection loss discards any partial multipart state. -/
def recvStep (s : RecvState) (e : RecvEvent) : RecvState :=
  match e with
  | RecvEvent.frame f more =>
    if more then ⟨s.pending ++ [f], s.queue⟩
    else ⟨[], s.queue ++ [s.pending ++ [f]]⟩
  | RecvEvent.connLost => ⟨[], s.queue⟩

/-- Run the receive-side state machine over a sequence of events. -/
def stepAll (s : RecvState) (es : List RecvEvent) : RecvState :=
  es.foldl recvStep s

/-- The event sequence by which a Message's frames arrive: every frame but
the last carries the more-flag. -/
def msgEvents (M : Message) : List RecvEvent :=
  M.dropLast.map (fun f => RecvEvent.frame f true) ++
    (match M.getLast? with
     | Option.some l => [RecvEvent.frame l false]
     | Option.none => [])

/-- Modelled from the spec: the outcome of `Context.terminate()` for a
Socket with a pending outbound message — flushed within the linger window,
or discarded. -/
inductive TermOutcome where
  | idle
  | flushed (m : Message)
  | discarded (m : Message)
deriving DecidableEq

/-- Modelled from the spec: `Context.terminate()` with linger.  `flushTime`
is the time the transport needs to flush the pending message.  With
linger = 0 the pending message is discarded and the call returns promptly
(elapsed 0); with linger = T > 0 the call waits up to T: the message is
flushed if it flushes within T, else discarded after waiting T.  The
second component is the elapsed time. -/
def terminate (pendingMsg : Option Message) (flushTime linger : Nat) :
    TermOutcome × Nat :=
  match pendingMsg with
  | Option.none => (TermOutcome.idle, 0)
  | Option.some m =>
    if linger = 0 then (TermOutcome.discarded m, 0)
    else if flushTime ≤ linger then (TermOutcome.flushed m, flushTime)
    else (TermOutcome.discarded m, linger)

end MsgCore

namespace Pyzmq

theorem lookup_append (k : String) (l₁ l₂ : List (String × PyVal)) :
    lookup k (l₁ ++ l₂) =
      match lookup k l₁ with
      | Option.some v => Option.some v
      | Option.none => lookup k l₂ := by
  induction l₁ with
  | nil => simp [lookup]
  | cons p rest ih =>
    obtain ⟨k₂, v⟩ := p
    by_cases h : k = k₂ <;> simp [lookup, h, ih]

theorem lookup_setKey_self (k : String) (v old : PyVal) (l : List (String × PyVal))
    (h : lookup k l = Option.some old) : lookup k (setKey k v l) = Option.some v := by
  induction l with
  | nil => simp [lookup] at h
  | cons p rest ih =>
    obtain ⟨k₂, v₂⟩ := p
    by_cases hk : k = k₂
    · simp [lookup, setKey, hk]
    · simp [lookup, hk] at h
      simp [lookup, setKey, hk, ih h]

theorem lookup_setKey_ne (k k₂ : String) (v : PyVal) (l : List (String × PyVal))
    (h : k ≠ k₂) : lookup k (setKey k₂ v l) = lookup k l := by
  induction l with
  | nil => simp [setKey]
  | cons p rest ih =>
    obtain ⟨k₃, v₃⟩ := p
    by_cases h3 : k₂ = k₃
    · subst h3
      simp [setKey, lookup, h]
    · by_cases hk : k = k₃ <;> simp [setKey, lookup, h3, hk, ih]

theorem lookup_eq_none_of_not_mem (k : String) (l : List (String × PyVal))
    (h : k ∉ l.map Prod.fst) : lookup k l = Option.none := by
  induction l with
  | nil => rfl
  | cons p rest ih =>
    obtain ⟨k₂, v⟩ := p
    simp only [List.map_cons, List.mem_cons, not_or] at h
    simp [lookup, h.1, ih h.2]

theorem mergeEntries_lookup (dd : List (String × PyVal)) :
    ∀ (into out : List (String × PyVal)), (dd.map Prod.fst).Nodup →
      mergeEntries into dd = Except.ok out →
      (∀ k, lookup k dd = Option.none → lookup k out = lookup k into) ∧
      (∀ k v, lookup k dd = Option.some v →
        (lookup k into = Option.none → lookup k out = Option.some v) ∧
        (∀ old m, lookup k into = Option.some old → merge old v = Except.ok m →
          lookup k out = Option.some m)) := by
  induction dd with
  | nil =>
    intro into out _ hme
    simp [mergeEntries] at hme
    subst hme
    refine ⟨fun k _ => rfl, fun k v hk => ?_⟩
    simp [lookup] at hk
  | cons p rest ih =>
    intro into out hnd hme
    obtain ⟨k₀, v₀⟩ := p
    simp only [List.map_cons, List.nodup_cons] at hnd
    have hk₀rest : lookup k₀ rest = Option.none :=
      lookup_eq_none_of_not_mem k₀ rest hnd.1
    cases hin : lookup k₀ into with
    | none =>
      simp only [mergeEntries, hin] at hme
      obtain ⟨ha, hb⟩ := ih (into ++ [(k₀, v₀)]) out hnd.2 hme
      constructor
      · intro k hk
        by_cases hkk : k = k₀
        · subst hkk
          simp [lookup] at hk
        · have h1 : lookup k rest = Option.none := by simpa [lookup, hkk] using hk
          rw [ha k h1, lookup_append]
          cases h2 : lookup k into <;> simp [h2, lookup, hkk]
      · intro k v hk
        by_cases hkk : k = k₀
        · subst hkk
          have hv : v₀ = v := by simpa [lookup] using hk
          constructor
          · intro _
            rw [ha k hk₀rest, lookup_append, hin]
            simp [lookup, hv]
          · intro old m hsome _
            rw [hin] at hsome
            exact absurd hsome (by simp)
        · have h1 : lookup k rest = Option.some v := by simpa [lookup, hkk] using hk
          obtain ⟨hb1, hb2⟩ := hb k v h1
          constructor
          · intro hnone
            apply hb1
            rw [lookup_append, hnone]
            simp [lookup, hkk]
          · intro old m hold hm
            apply hb2 old m _ hm
            rw [lookup_append, hold]
    | some old₀ =>
      cases hm₀ : merge old₀ v₀ with
      | error e =>
        simp only [mergeEntries, hin, hm₀] at hme
        exact absurd hme (by simp)
      | ok m₀ =>
        simp only [mergeEntries, hin, hm₀] at hme
        obtain ⟨ha, hb⟩ := ih (setKey k₀ m₀ into) out hnd.2 hme
        constructor
        · intro k hk
          by_cases hkk : k = k₀
          · subst hkk
            simp [lookup] at hk
          · have h1 : lookup k rest = Option.none := by simpa [lookup, hkk] using hk
            rw [ha k h1, lookup_setKey_ne k k₀ m₀ into hkk]
        · intro k v hk
          by_cases hkk : k = k₀
          · subst hkk
            have hv : v₀ = v := by simpa [lookup] using hk
            constructor
            · intro hnone
              rw [hin] at hnone
              exact absurd hnone (by simp)
            · intro old m hold hm
              rw [hin] at hold
              have holdeq : old₀ = old := by simpa using hold
              have hmeq : (Except.ok m₀ : Except String PyVal) = Except.ok m := by
                rw [← hm₀, holdeq, hv]
                exact hm
              have hm3 : m₀ = m := by simpa using hmeq
              rw [ha k hk₀rest, ← hm3]
              exact lookup_setKey_self k m₀ old₀ into hin
          · have h1 : lookup k rest = Option.some v := by simpa [lookup, hkk] using hk
            obtain ⟨hb1, hb2⟩ := hb k v h1
            constructor
            · intro hnone
              apply hb1
              rw [lookup_setKey_ne k k₀ m₀ into hkk]
              exact hnone
            · intro old m hold hm
              apply hb2 old m _ hm
              rw [lookup_setKey_ne k k₀ m₀ into hkk]
              exact hold

/-- C10: `merge(into, d)` returns `d` when `into` is neither a dict nor a
list; returns the concatenation `into + d` when `into` is a list; and when
`into` is a dict it returns a dict in which every key of `d` maps to the
recursive merge of the two values (so `d` has priority), while every key of
`into` absent from `d` keeps its original value. -/
theorem merge_semantics :
    (∀ into d : PyVal, isScalar into = true → merge into d = Except.ok d) ∧
    (∀ l dl : List PyVal,
      merge (PyVal.list l) (PyVal.list dl) = Except.ok (PyVal.list (l ++ dl))) ∧
    (∀ into dd out : List (String × PyVal), (dd.map Prod.fst).Nodup →
      merge (PyVal.dict into) (PyVal.dict dd) = Except.ok (PyVal.dict out) →
      (∀ k, lookup k dd = Option.none → lookup k out = lookup k into) ∧
      (∀ k v, lookup k dd = Option.some v →
        (lookup k into = Option.none → lookup k out = Option.some v) ∧
        (∀ old m, lookup k into = Option.some old → merge old v = Except.ok m →
          lookup k out = Option.some m))) := by
  refine ⟨?_, ?_, ?_⟩
  · intro into d h
    cases into <;> simp [isScalar] at h <;> cases d <;> rfl
  · intro l dl
    rfl
  · intro into dd out hnd hm
    have hme : mergeEntries into dd = Except.ok out := by
      cases h : mergeEntries into dd with
      | ok o =>
        simp only [merge, h, Except.ok.injEq, PyVal.dict.injEq] at hm
        rw [hm]
      | error e =>
        simp [merge, h] at hm
    exact mergeEntries_lookup dd into out hnd hme

/-- Witness for C10 at concrete inputs: a scalar merge, a list merge, and a
dict merge where key b of d overrides key b of into. -/
theorem merge_semantics_witness :
    merge (PyVal.int 7) (PyVal.str ("x")) = Except.ok (PyVal.str ("x")) ∧
    merge (PyVal.list [PyVal.int 1]) (PyVal.list [PyVal.int 2]) =
      Except.ok (PyVal.list [PyVal.int 1, PyVal.int 2]) ∧
    lookup ("b") [("a", PyVal.int 1), ("b", PyVal.int 3), ("c", PyVal.int 4)] =
      Option.some (PyVal.int 3) :=
  ⟨merge_semantics.1 (PyVal.int 7) (PyVal.str ("x")) rfl,
   merge_semantics.2.1 [PyVal.int 1] [PyVal.int 2],
   ((merge_semantics.2.2 [("a", PyVal.int 1), ("b", PyVal.int 2)]
        [("b", PyVal.int 3), ("c", PyVal.int 4)]
        [("a", PyVal.int 1), ("b", PyVal.int 3), ("c", PyVal.int 4)]
        (by decide) (by rfl)).2 ("b") (PyVal.int 3) rfl).2
      (PyVal.int 2) (PyVal.int 3) rfl rfl⟩

/-- C8: `config_from_prefix` maps default/auto/empty prefixes (case
insensitively) to empty zmq_prefix with both extension flags False; bundled/
extension to the bundled-extension configuration; any other prefix to its
absolute path with `no_libzmq_extension` and `allow_legacy_libzmq` set; the
two extension flags are never both True. -/
theorem config_from_prefix_cases (ap : String → String) (pfx : String) :
    ((pyLower pfx = "default" ∨ pyLower pfx = "auto" ∨ pyLower pfx = "") →
      config_from_prefix ap pfx = ⟨"", false, false, Option.none⟩) ∧
    ((pyLower pfx = "bundled" ∨ pyLower pfx = "extension") →
      config_from_prefix ap pfx = ⟨"", true, false, Option.none⟩) ∧
    (pyLower pfx ≠ "default" → pyLower pfx ≠ "auto" → pyLower pfx ≠ "" →
      pyLower pfx ≠ "bundled" → pyLower pfx ≠ "extension" →
      config_from_prefix ap pfx = ⟨ap pfx, false, true, Option.some true⟩) ∧
    ¬(( config_from_prefix ap pfx).libzmq_extension = true ∧
      ( config_from_prefix ap pfx).no_libzmq_extension = true) := by
  refine ⟨?_, ?_, ?_, ?_⟩
  · rintro (h | h | h) <;> simp [ config_from_prefix, h]
  · rintro (h | h) <;> simp [ config_from_prefix, h]
  · intro h1 h2 h3 h4 h5
    simp [ config_from_prefix, h1, h2, h3, h4, h5]
  · unfold config_from_prefix
    split_ifs <;> simp

/-- Witness for C8 at concrete prefixes: the bundled case (uppercase, so
through the lowercasing) and an explicit path prefix. -/
theorem config_from_prefix_cases_witness :
    config_from_prefix id ("BUNDLED") = ⟨"", true, false, Option.none⟩ ∧
    config_from_prefix id ("/opt/zmq") =
      ⟨id ("/opt/zmq"), false, true, Option.some true⟩ :=
  ⟨( config_from_prefix_cases id ("BUNDLED")).2.1 (Or.inl (by decide)),
   ( config_from_prefix_cases id ("/opt/zmq")).2.2.1 (by decide) (by decide)
     (by decide) (by decide) (by decide)⟩

theorem versLt_iff_lex (a : List Nat) : ∀ b : List Nat,
    versLt a b = true ↔ List.Lex (· < ·) a b := by
  induction a with
  | nil =>
    intro b
    cases b with
    | nil =>
      simp only [versLt, Bool.false_eq_true, false_iff]
      exact List.Lex.not_nil_right _ _
    | cons y ys =>
      simp only [versLt, true_iff]
      exact List.Lex.nil
  | cons x xs ih =>
    intro b
    cases b with
    | nil =>
      simp only [versLt, Bool.false_eq_true, false_iff]
      exact List.Lex.not_nil_right _ _
    | cons y ys =>
      constructor
      · intro h
        rw [versLt] at h
        split_ifs at h with h1 h2
        · exact List.Lex.rel h1
        · have hxy : x = y := by omega
          subst hxy
          exact List.Lex.cons ((ih ys).mp h)
      · intro h
        rw [versLt]
        cases h with
        | rel h1 => simp [h1]
        | cons h2 =>
          simp [Nat.lt_irrefl, (ih ys).mpr h2]

/-- C9: under the precondition that the test build detects version `vers`,
`check_zmq_version` raises `LibZMQVersionError` iff `vers` is
lexicographically below the minimum — `min_legacy_zmq = (2,1,4)` when
`allow_legacy_libzmq` is set, `min_good_zmq = (3,2)` otherwise; at or above
the minimum it returns normally with only warnings. -/
theorem check_zmq_version_gate ( zp : String) (al : Bool) (t d vers : List Nat) :
    isError (check_zmq_version zp al t d vers) = true ↔
      List.Lex (· < ·) vers (if al then min_legacy_zmq else min_good_zmq) := by
  rw [← versLt_iff_lex]
  cases al <;>
    · simp only [check_zmq_version, Bool.false_eq_true, if_true, if_false]
      split_ifs with h1 h2 h3 h4 <;> simp [isError, h1]

end Pyzmq

namespace MsgCore

theorem pubPushAll_closed (ms : List Message) :
    ∀ b : SubscriberBuf, b.buf.length ≤ b.capacity →
      (pubPushAll b ms).capacity = b.capacity ∧
      (pubPushAll b ms).buf =
        (b.buf ++ ms).drop (b.buf.length + ms.length - b.capacity) ∧
      (pubPushAll b ms).dropped =
        b.dropped + (b.buf.length + ms.length - b.capacity) := by
  induction ms with
  | nil =>
    intro b h
    have h0 : b.buf.length - b.capacity = 0 := by omega
    refine ⟨rfl, ?_, ?_⟩
    · simp [pubPushAll, h0]
    · simp [pubPushAll, h0]
  | cons m ms ih =>
    intro b h
    by_cases hov : b.buf.length + 1 ≤ b.capacity
    · have hstep : pubPushAll b (m :: ms) =
          pubPushAll ⟨b.capacity, b.buf ++ [m], b.dropped⟩ ms := by
        simp [pubPushAll, pubPush, hov]
      obtain ⟨hc, hb, hd⟩ :=
        ih ⟨b.capacity, b.buf ++ [m], b.dropped⟩ (by simp; omega)
      rw [hstep]
      refine ⟨hc, ?_, ?_⟩
      · rw [hb]
        simp only [List.append_assoc, List.singleton_append, List.length_append,
          List.length_cons]
        congr 1
        simp
        omega
      · rw [hd]
        simp
        omega
    · have hstep : pubPushAll b (m :: ms) =
          pubPushAll ⟨b.capacity, (b.buf ++ [m]).drop 1, b.dropped + 1⟩ ms := by
        have hamt : b.buf.length + 1 - b.capacity = 1 := by omega
        simp [pubPushAll, pubPush, hov, hamt]
      obtain ⟨hc, hb, hd⟩ :=
        ih ⟨b.capacity, (b.buf ++ [m]).drop 1, b.dropped + 1⟩ (by simp; omega)
      rw [hstep]
      refine ⟨hc, ?_, ?_⟩
      · rw [hb]
        have hlen : ((b.buf ++ [m]).drop 1).length = b.capacity := by
          simp
          omega
        rw [hlen]
        have h2 : b.capacity + ms.length - b.capacity = ms.length := by omega
        rw [h2]
        have h3 : b.buf ++ m :: ms = (b.buf ++ [m]) ++ ms := by simp
        rw [h3]
        have h4 : b.buf.length + (m :: ms).length - b.capacity = 1 + ms.length := by
          simp
          omega
        rw [h4]
        have h5 : ((b.buf ++ [m]) ++ ms).drop 1 = (b.buf ++ [m]).drop 1 ++ ms :=
          List.drop_append_of_le_length (by simp)
        rw [← List.drop_drop, h5]
      · rw [hd]
        simp
        omega

/-- C4: publishing N messages into an empty subscriber ring buffer of
capacity K < N, with no draining, leaves exactly the most recent K messages
deliverable, and the observable drop counter equals N - K. -/
theorem pubsub_overflow (K N : Nat) (ms : List Message)
    (hN : ms.length = N) (hK : K < N) :
    (pubPushAll ⟨K, [], 0⟩ ms).buf = ms.drop (N - K) ∧
    (pubPushAll ⟨K, [], 0⟩ ms).buf.length = K ∧
    (pubPushAll ⟨K, [], 0⟩ ms).dropped = N - K := by
  obtain ⟨hc, hb, hd⟩ := pubPushAll_closed ms ⟨K, [], 0⟩ (by simp)
  subst hN
  refine ⟨?_, ?_, ?_⟩
  · rw [hb]
    simp
  · rw [hb]
    simp
    omega
  · rw [hd]
    simp

/-- Witness for C4: N = 3 messages into a K = 1 buffer keep only the last
message and count 2 drops. -/
theorem pubsub_overflow_witness :
    (pubPushAll ⟨1, [], 0⟩ [[[10]], [[11]], [[12]]]).buf =
      [[[10]], [[11]], [[12]]].drop (3 - 1) ∧
    (pubPushAll ⟨1, [], 0⟩ [[[10]], [[11]], [[12]]]).buf.length = 1 ∧
    (pubPushAll ⟨1, [], 0⟩ [[[10]], [[11]], [[12]]]).dropped = 3 - 1 :=
  pubsub_overflow 1 3 [[[10]], [[11]], [[12]]] rfl (by decide)

/-- C3: on a requester Socket with no outstanding request, a first send
succeeds, and a second send issued before the reply arrives fails with
StateError, leaving the Socket — its connection included — unchanged. -/
theorem req_lockstep (C : Type) (s : ReqSocket C) (m₁ m₂ : Message)
    (h : s.awaitingReply = false) :
    (reqSend s m₁).1 = Option.none ∧
    (reqSend (reqSend s m₁).2 m₂).1 = Option.some SockError.StateError ∧
    (reqSend (reqSend s m₁).2 m₂).2 = (reqSend s m₁).2 := by
  simp [reqSend, h]

/-- Witness for C3 on a concrete idle requester socket. -/
theorem req_lockstep_witness :
    (reqSend (⟨false, [], ()⟩ : ReqSocket Unit) [[0]]).1 = Option.none ∧
    (reqSend (reqSend (⟨false, [], ()⟩ : ReqSocket Unit) [[0]]).2 [[1]]).1 =
      Option.some SockError.StateError ∧
    (reqSend (reqSend (⟨false, [], ()⟩ : ReqSocket Unit) [[0]]).2 [[1]]).2 =
      (reqSend (⟨false, [], ()⟩ : ReqSocket Unit) [[0]]).2 :=
  req_lockstep Unit ⟨false, [], ()⟩ [[0]] [[1]] rfl

theorem tryFrom_two (avail : List Bool) (start : Nat) :
    tryFrom avail start 2 =
      (if avail.getD (start % avail.length) false then
        Option.some (start % avail.length)
      else if avail.getD ((start + 1) % avail.length) false then
        Option.some ((start + 1) % avail.length)
      else Option.none) := rfl

/-- C5: with two peer connections of which one reports WouldBlock for the
round, round-robin dispatch delivers the round's message to the other peer
in that same round (no stall), and — both peers being ready next round —
the skipped connection receives the next message. -/
theorem pushpull_roundrobin (wb : Bool) (c : Nat) :
    (dispatch (if wb then [true, false] else [false, true]) c).1 =
      Option.some (if wb then 0 else 1) ∧
    (dispatch [true, true]
        ((dispatch (if wb then [true, false] else [false, true]) c).2)).1 =
      Option.some (if wb then 1 else 0) := by
  cases wb
  · rcases Nat.mod_two_eq_zero_or_one c with h | h
    · have h1 : (c + 1) % 2 = 1 := by omega
      simp [dispatch, tryFrom_two, h, h1]
    · simp [dispatch, tryFrom_two, h]
  · rcases Nat.mod_two_eq_zero_or_one c with h | h
    · simp [dispatch, tryFrom_two, h]
    · have h1 : (c + 1) % 2 = 0 := by omega
      simp [dispatch, tryFrom_two, h, h1]

/-- C7: terminate with a pending message: linger 0 discards it and returns
promptly (elapsed 0); linger T > 0 waits up to T — the message flushes if
its flush time fits in T, else it is discarded after waiting T. -/
theorem terminate_linger (m : Message) (f T : Nat) (hT : 0 < T) :
    terminate (Option.some m) f 0 = (TermOutcome.discarded m, 0) ∧
    (f ≤ T → terminate (Option.some m) f T = (TermOutcome.flushed m, f)) ∧
    (T < f → terminate (Option.some m) f T = (TermOutcome.discarded m, T)) ∧
    (terminate (Option.some m) f T).2 ≤ T := by
  have hT0 : T ≠ 0 := by omega
  refine ⟨by simp [terminate], ?_, ?_, ?_⟩
  · intro hf
    simp [terminate, hT0, hf]
  · intro hf
    have h2 : ¬ f ≤ T := by omega
    simp [terminate, hT0, h2]
  · by_cases hf : f ≤ T
    · simp [terminate, hT0, hf]
    · simp [terminate, hT0, hf]

/-- Witness for C7 with flush time 1 and linger 0 respectively 2. -/
theorem terminate_linger_witness :
    terminate (Option.some [[0]]) 1 0 = (TermOutcome.discarded [[0]], 0) ∧
    (1 ≤ 2 → terminate (Option.some [[0]]) 1 2 = (TermOutcome.flushed [[0]], 1)) ∧
    (2 < 1 → terminate (Option.some [[0]]) 1 2 = (TermOutcome.discarded [[0]], 2)) ∧
    (terminate (Option.some [[0]]) 1 2).2 ≤ 2 :=
  terminate_linger [[0]] 1 2 (by decide)

end MsgCore

namespace MsgCore

theorem decodeVarint_encodeVarintAux : ∀ fuel n : Nat, n ≤ fuel → ∀ tail : List Nat,
    decodeVarint (encodeVarintAux fuel n ++ tail) = Option.some (n, tail) := by
  intro fuel
  induction fuel with
  | zero =>
    intro n hn tail
    have h0 : n = 0 := by omega
    subst h0
    simp [encodeVarintAux, decodeVarint]
  | succ fuel ih =>
    intro n hn tail
    by_cases h : n < 128
    · simp [encodeVarintAux, decodeVarint, h]
    · have hdiv : n / 128 < n := Nat.div_lt_self (by omega) (by omega)
      have hn2 : n / 128 ≤ fuel := by omega
      have hb : ¬ (n % 128 + 128 < 128) := by omega
      simp [encodeVarintAux, h, decodeVarint, hb, ih (n / 128) hn2 tail]
      omega

theorem decodeVarint_encodeVarint (n : Nat) (tail : List Nat) :
    decodeVarint (encodeVarint n ++ tail) = Option.some (n, tail) :=
  decodeVarint_encodeVarintAux n n (Nat.le_refl n) tail

theorem decodeFrame_encodeFrame (more : Bool) (f : Frame) (tail : List Nat) :
    decodeFrame (encodeFrame more f ++ tail) = Option.some (more, f, tail) := by
  have hv := decodeVarint_encodeVarint f.length (f ++ tail)
  have hlen : (f ++ tail).length = f.length + tail.length := List.length_append f tail
  have hge : ¬ ((f ++ tail).length < f.length) := by omega
  cases more <;>
    simp [encodeFrame, decodeFrame, List.append_assoc, hv, hge,
      List.take_left f tail, List.drop_left f tail]

theorem encode_ne_nil (M : Message) (hM : M ≠ []) : encode M ≠ [] := by
  cases M with
  | nil => exact absurd rfl hM
  | cons f rest => cases rest <;> simp [encode, encodeFrame]

theorem length_le_length_encode (M : Message) : M.length ≤ (encode M).length := by
  induction M with
  | nil => simp
  | cons f rest ih =>
    cases rest with
    | nil => simp [encode, encodeFrame]
    | cons g rest2 =>
      have hstep : encode (f :: g :: rest2) = encodeFrame true f ++ encode (g :: rest2) := rfl
      rw [hstep, List.length_append]
      have h1 : 1 ≤ (encodeFrame true f).length := by simp [encodeFrame]
      simp only [List.length_cons] at ih ⊢
      omega

theorem decodeMessageAux_encode : ∀ M : Message, M ≠ [] → ∀ (tail : List Nat) (fuel : Nat),
    M.length ≤ fuel → decodeMessageAux fuel (encode M ++ tail) = Option.some (M, tail) := by
  intro M
  induction M with
  | nil => intro h; exact absurd rfl h
  | cons f rest ih =>
    intro _ tail fuel hf
    cases rest with
    | nil =>
      cases fuel with
      | zero => simp at hf
      | succ fuel =>
        simp [encode, decodeMessageAux, decodeFrame_encodeFrame]
    | cons g rest2 =>
      cases fuel with
      | zero => simp at hf
      | succ fuel =>
        have hrec := ih (by simp) tail fuel (by simp only [List.length_cons] at hf ⊢; omega)
        have hsplit : encode (f :: g :: rest2) ++ tail =
            encodeFrame true f ++ (encode (g :: rest2) ++ tail) := by
          simp [encode]
        rw [hsplit]
        simp [decodeMessageAux, decodeFrame_encodeFrame, hrec]

theorem decodeMessage_encode (M : Message) (hM : M ≠ []) :
    decodeMessage (encode M) = Option.some (M, []) := by
  unfold decodeMessage
  have h := decodeMessageAux_encode M hM [] (encode M).length (length_le_length_encode M)
  rw [List.append_nil] at h
  exact h

/-- C1: decoding the bytes produced by encoding a Message of k ≥ 1 frames
yields exactly that Message — same frames, same order, same bytes — with
the whole encoding consumed. -/
theorem frame_roundtrip (M : Message) (hM : M ≠ []) :
    decode (encode M) = (Option.some M, (encode M).length) := by
  simp [decode, decodeMessage_encode M hM]

/-- Witness for C1 on a concrete two-frame message. -/
theorem frame_roundtrip_witness :
    decode (encode [[7], [1, 2]]) =
      (Option.some [[7], [1, 2]], (encode [[7], [1, 2]]).length) :=
  frame_roundtrip [[7], [1, 2]] (by decide)

end MsgCore

namespace MsgCore

theorem prefix_singleton {α : Type} (x : α) (pre : List α)
    (h : pre <+: [x]) (hne : pre ≠ [x]) : pre = [] := by
  rcases h with ⟨t, ht⟩
  cases pre with
  | nil => rfl
  | cons p ps =>
    rw [List.cons_append] at ht
    injection ht with h1 h2
    obtain ⟨hps, _⟩ := List.append_eq_nil.mp h2
    subst h1
    subst hps
    exact absurd rfl hne

theorem prefix_append_cases {α : Type} (A : List α) :
    ∀ (B pre : List α), pre <+: A ++ B →
      pre <+: A ∨ ∃ q, pre = A ++ q ∧ q <+: B := by
  induction A with
  | nil =>
    intro B pre h
    exact Or.inr ⟨pre, rfl, h⟩
  | cons a A ih =>
    intro B pre h
    cases pre with
    | nil => exact Or.inl (List.nil_prefix)
    | cons p ps =>
      rw [List.cons_append] at h
      obtain ⟨hp, hps⟩ := List.cons_prefix_cons.mp h
      subst hp
      rcases ih B ps hps with h2 | ⟨q, hq, hqB⟩
      · exact Or.inl (List.cons_prefix_cons.mpr ⟨rfl, h2⟩)
      · subst hq
        exact Or.inr ⟨q, rfl, hqB⟩

theorem decodeVarint_encodeVarintAux_prefix : ∀ fuel n : Nat, n ≤ fuel →
    ∀ pre : List Nat, pre <+: encodeVarintAux fuel n →
      pre ≠ encodeVarintAux fuel n → decodeVarint pre = Option.none := by
  intro fuel
  induction fuel with
  | zero =>
    intro n hn pre hp hne
    have h0 : n = 0 := by omega
    subst h0
    rw [prefix_singleton _ pre (by simpa [encodeVarintAux] using hp)
      (by simpa [encodeVarintAux] using hne)]
    rfl
  | succ fuel ih =>
    intro n hn pre hp hne
    by_cases h : n < 128
    · rw [prefix_singleton _ pre (by simpa [encodeVarintAux, h] using hp)
        (by simpa [encodeVarintAux, h] using hne)]
      rfl
    · simp only [encodeVarintAux, if_neg h] at hp hne
      cases pre with
      | nil => rfl
      | cons p ps =>
        obtain ⟨hpb, hps⟩ := List.cons_prefix_cons.mp hp
        subst hpb
        have hdiv : n / 128 < n := Nat.div_lt_self (by omega) (by omega)
        have hne2 : ps ≠ encodeVarintAux fuel (n / 128) := by
          intro h2
          exact hne (by rw [h2])
        have hrec := ih (n / 128) (by omega) ps hps hne2
        have hb : ¬ (n % 128 + 128 < 128) := by omega
        simp [decodeVarint, hb, hrec]

theorem decodeVarint_encodeVarint_prefix (n : Nat) (pre : List Nat)
    (hp : pre <+: encodeVarint n) (hne : pre ≠ encodeVarint n) :
    decodeVarint pre = Option.none :=
  decodeVarint_encodeVarintAux_prefix n n (Nat.le_refl n) pre hp hne

theorem decodeVarint_encodeVarint_exact (n : Nat) :
    decodeVarint (encodeVarint n) = Option.some (n, []) := by
  have h := decodeVarint_encodeVarint n []
  rwa [List.append_nil] at h

theorem decodeFrame_prefix_none (more : Bool) (f : Frame) (pre : List Nat)
    (hp : pre <+: encodeFrame more f) (hne : pre ≠ encodeFrame more f) :
    decodeFrame pre = Option.none := by
  cases pre with
  | nil => rfl
  | cons p ps =>
    simp only [encodeFrame] at hp hne
    obtain ⟨hpb, hps⟩ := List.cons_prefix_cons.mp hp
    subst hpb
    have hne2 : ps ≠ encodeVarint f.length ++ f := by
      intro h2
      exact hne (by rw [h2])
    rcases prefix_append_cases (encodeVarint f.length) f ps hps with h2 | ⟨q, hq, hqf⟩
    · by_cases heq : ps = encodeVarint f.length
      · subst heq
        have hf : f ≠ [] := by
          intro h0
          apply hne2
          rw [h0, List.append_nil]
        have hlen : 0 < f.length := List.length_pos.mpr hf
        simp [decodeFrame, decodeVarint_encodeVarint_exact, hlen]
      · have hv := decodeVarint_encodeVarint_prefix f.length ps h2 heq
        simp [decodeFrame, hv]
    · subst hq
      have hqne : q ≠ f := by
        intro h2
        exact hne2 (by rw [h2])
      have hqlt : q.length < f.length :=
        lt_of_le_of_ne hqf.length_le (fun hl => hqne (hqf.eq_of_length hl))
      simp [decodeFrame, decodeVarint_encodeVarint, hqlt]

theorem decodeMessageAux_nil : ∀ fuel : Nat, decodeMessageAux fuel [] = Option.none := by
  intro fuel
  cases fuel <;> simp [decodeMessageAux, decodeFrame]

theorem decodeMessageAux_prefix_none : ∀ M : Message, M ≠ [] →
    ∀ pre : List Nat, pre <+: encode M → pre ≠ encode M →
      ∀ fuel : Nat, decodeMessageAux fuel pre = Option.none := by
  intro M
  induction M with
  | nil => intro h; exact absurd rfl h
  | cons f rest ih =>
    intro _ pre hp hne fuel
    cases rest with
    | nil =>
      have hd : decodeFrame pre = Option.none :=
        decodeFrame_prefix_none false f pre (by simpa [encode] using hp)
          (by simpa [encode] using hne)
      cases fuel <;> simp [decodeMessageAux, hd]
    | cons g rest2 =>
      have hsplit : encode (f :: g :: rest2) = encodeFrame true f ++ encode (g :: rest2) := rfl
      rw [hsplit] at hp hne
      rcases prefix_append_cases (encodeFrame true f) (encode (g :: rest2)) pre hp with
        h2 | ⟨q, hq, hqe⟩
      · by_cases heq : pre = encodeFrame true f
        · subst heq
          have hd : decodeFrame (encodeFrame true f) = Option.some (true, f, []) := by
            have h3 := decodeFrame_encodeFrame true f []
            rwa [List.append_nil] at h3
          cases fuel with
          | zero => rfl
          | succ fuel => simp [decodeMessageAux, hd, decodeMessageAux_nil]
        · have hd : decodeFrame pre = Option.none :=
            decodeFrame_prefix_none true f pre h2 heq
          cases fuel <;> simp [decodeMessageAux, hd]
      · subst hq
        have hqne : q ≠ encode (g :: rest2) := by
          intro h2
          exact hne (by rw [h2])
        have hrec := ih (by simp) q hqe hqne
        cases fuel with
        | zero => rfl
        | succ fuel =>
          simp [decodeMessageAux, decodeFrame_encodeFrame, hrec fuel]

theorem decodeMessage_prefix_none (M : Message) (hM : M ≠ []) (pre : List Nat)
    (hp : pre <+: encode M) (hne : pre ≠ encode M) :
    decodeMessage pre = Option.none :=
  decodeMessageAux_prefix_none M hM pre hp hne pre.length

theorem drain_of_decodeMessage_none (buf : List Nat)
    (h : decodeMessage buf = Option.none) : drain buf = ([], buf) := by
  simp [drain, drainAux, h]

theorem drainAux_nil : ∀ fuel : Nat, drainAux fuel [] = ([], []) := by
  intro fuel
  cases fuel <;> simp [drainAux, decodeMessage, decodeMessageAux_nil]

theorem drain_encode (M : Message) (hM : M ≠ []) : drain (encode M) = ([M], []) := by
  simp [drain, drainAux, decodeMessage_encode M hM, drainAux_nil]

theorem feedChunks_all_nil : ∀ cs : List (List Nat), cs.flatten = [] →
    feedChunks [] cs = ([], []) := by
  intro cs
  induction cs with
  | nil => intro _; rfl
  | cons c cs ih =>
    intro h
    rw [List.flatten_cons] at h
    obtain ⟨hc, hcs⟩ := List.append_eq_nil.mp h
    subst hc
    have hdn : drain [] = ([], []) := by
      simp [drain, drainAux, decodeMessage, decodeMessageAux_nil]
    simp [feedChunks, hdn, ih hcs]

theorem feedChunks_assemble (M : Message) (hM : M ≠ []) :
    ∀ (cs : List (List Nat)) (pre : List Nat), pre ++ cs.flatten = encode M →
      pre ≠ encode M → feedChunks pre cs = ([M], []) := by
  intro cs
  induction cs with
  | nil =>
    intro pre hp hne
    rw [List.flatten_nil, List.append_nil] at hp
    exact absurd hp hne
  | cons c cs ih =>
    intro pre hp hne
    rw [List.flatten_cons, ← List.append_assoc] at hp
    by_cases hfull : pre ++ c = encode M
    · have hrest : cs.flatten = [] := by
        rw [hfull] at hp
        have h2 : encode M ++ cs.flatten = encode M ++ [] := by simpa using hp
        exact List.append_cancel_left h2
      simp [feedChunks, hfull, drain_encode M hM, feedChunks_all_nil cs hrest]
    · have hd : drain (pre ++ c) = ([], pre ++ c) :=
        drain_of_decodeMessage_none _
          (decodeMessage_prefix_none M hM (pre ++ c) ⟨cs.flatten, hp⟩ hfull)
      simp [feedChunks, hd, ih (pre ++ c) hp hfull]

/-- C2: for every split of encode(M) into chunks fed incrementally, no
complete Message is produced while only a proper prefix of the bytes has
arrived (the tail stays buffered), and once all bytes have arrived exactly
M is produced with an empty residual buffer. -/
theorem frame_restartable (M : Message) (hM : M ≠ []) (chunks : List (List Nat))
    (hj : chunks.flatten = encode M) :
    (∀ pre, pre <+: encode M → pre ≠ encode M → drain pre = ([], pre)) ∧
    feedChunks [] chunks = ([M], []) := by
  constructor
  · intro pre hp hne
    exact drain_of_decodeMessage_none pre (decodeMessage_prefix_none M hM pre hp hne)
  · refine feedChunks_assemble M hM chunks [] (by simpa using hj) ?_
    intro h0
    exact encode_ne_nil M hM h0.symm

/-- Witness for C2: encode [[2],[3]] = [1,1,2,0,1,3] split into three
chunks reassembles to exactly the original message. -/
theorem frame_restartable_witness :
    (∀ pre, pre <+: encode [[2], [3]] → pre ≠ encode [[2], [3]] →
      drain pre = ([], pre)) ∧
    feedChunks [] [[1, 1], [2, 0], [1, 3]] = ([[[2], [3]]], []) :=
  frame_restartable [[2], [3]] (by decide) [[1, 1], [2, 0], [1, 3]] (by decide)

end MsgCore

namespace MsgCore

theorem stepAll_moreFrames : ∀ (fs : List Frame) (s : RecvState),
    stepAll s (fs.map (fun f => RecvEvent.frame f true)) =
      ⟨s.pending ++ fs, s.queue⟩ := by
  intro fs
  induction fs with
  | nil => intro s; simp [stepAll]
  | cons f fs ih =>
    intro s
    have hstep : stepAll s ((f :: fs).map (fun f => RecvEvent.frame f true)) =
        stepAll ⟨s.pending ++ [f], s.queue⟩ (fs.map (fun f => RecvEvent.frame f true)) := by
      simp [stepAll, recvStep]
    rw [hstep, ih]
    simp

theorem stepAll_append (s : RecvState) (es₁ es₂ : List RecvEvent) :
    stepAll s (es₁ ++ es₂) = stepAll (stepAll s es₁) es₂ := by
  simp [stepAll]

theorem msgEvents_concat (fs : List Frame) (lf : Frame) :
    msgEvents (fs ++ [lf]) =
      fs.map (fun f => RecvEvent.frame f true) ++ [RecvEvent.frame lf false] := by
  simp [msgEvents, List.dropLast_concat, List.getLast?_concat]

/-- C6: a multipart Message is atomic.  Starting at a message boundary,
delivering all its frames appends the whole Message, in order, as one
receive-queue entry; if the connection is lost after any proper prefix of
the frames, the partial multipart state is discarded and the receive queue
is unchanged — no reachable state exposes a proper non-empty prefix of the
Message to the receiver. -/
theorem multipart_atomic (s : RecvState) (M : Message) (hM : M ≠ [])
    (hp : s.pending = []) :
    stepAll s (msgEvents M) = ⟨[], s.queue ++ [M]⟩ ∧
    (∀ pre, pre <+: M → pre ≠ M →
      stepAll s (pre.map (fun f => RecvEvent.frame f true) ++ [RecvEvent.connLost]) =
        ⟨[], s.queue⟩) := by
  constructor
  · rcases List.eq_nil_or_concat M with h0 | ⟨fs, lf, h0⟩
    · exact absurd h0 hM
    · rw [List.concat_eq_append] at h0
      subst h0
      rw [msgEvents_concat, stepAll_append, stepAll_moreFrames fs s, hp]
      simp [stepAll, recvStep]
  · intro pre _ _
    rw [stepAll_append, stepAll_moreFrames pre s, hp]
    simp [stepAll, recvStep]

/-- Witness for C6 on a two-frame message received whole, and on its
one-frame proper prefix cut off by connection loss. -/
theorem multipart_atomic_witness :
    stepAll ⟨[], []⟩ (msgEvents [[1], [2]]) = ⟨[], [] ++ [[[1], [2]]]⟩ ∧
    stepAll ⟨[], []⟩
        ([[1]].map (fun f => RecvEvent.frame f true) ++ [RecvEvent.connLost]) =
      ⟨[], []⟩ :=
  ⟨(multipart_atomic ⟨[], []⟩ [[1], [2]] (by decide) rfl).1,
   (multipart_atomic ⟨[], []⟩ [[1], [2]] (by decide) rfl).2 [[1]] ⟨[[2]], rfl⟩
     (by decide)⟩

end MsgCore
